import Mathlib

/-!
Verification of the mattori-fml-api core (src/server.py) against its
natural-language specification.

The embedding below translates, function by function, the pure string-processing
core of `server.py`:

* `normalize_url`       (server.py lines 41-47, with the regex `FUNDA_DETAIL_ROOT`
  of lines 35-38),
* `extract_project_id`  (server.py lines 50-76, three prioritized strategies), and
* `extract_sale_status` (server.py lines 79-94).

Strings are modelled as `List Char` internally (`String` at the boundary).
Python regular-expression searches are modelled by explicit leftmost scanners
whose per-position semantics follow the concrete patterns of the source; the
relevant patterns contain no ambiguity after standard greedy/lazy analysis, so
each scanner is deterministic.  Python's `json.loads` is modelled by a
fuel-based recursive-descent parser over the JSON grammar that CPython's `json`
module accepts (including `NaN`/`Infinity` literals).  Character classes
(`str.strip`, `\s`, `\d`, `str.lower`, `re.IGNORECASE`) are modelled at ASCII
granularity, which is faithful on ASCII inputs; `\uXXXX` escapes that denote
lone surrogates (which CPython's parser lets through) are mapped to U+FFFD,
which is observationally equivalent here because the program only ever asks
whether resulting characters are digits.  Resource limits (Python recursion
depth) are not modelled.
-/

namespace Mattori

/-- ASCII whitespace as stripped by Python's `str.strip()` and matched by `\s`
(space, tab, newline, carriage return, vertical tab, form feed). -/
def pyWs (c : Char) : Bool :=
  c = ' ' || c = '\t' || c = '\n' || c = '\r' || c = '\x0b' || c = '\x0c'

/-- `s.strip()`: drop leading and trailing whitespace. -/
def pyStrip (l : List Char) : List Char :=
  ((l.dropWhile pyWs).reverse.dropWhile pyWs).reverse

/-- `s.rstrip("/")`: drop every trailing `'/'`. -/
def rstripSlash (l : List Char) : List Char :=
  (l.reverse.dropWhile (fun c => c = '/')).reverse

/-- `url.strip().rstrip("/")` — the trimming done first in `normalize_url`. -/
def pyTrim (l : List Char) : List Char :=
  rstripSlash (pyStrip l)

/-- Python's substring test `needle in haystack` on strings. -/
def strContains (needle : List Char) : List Char → Bool
  | [] => needle.isEmpty
  | c :: t => needle.isPrefixOf (c :: t) || strContains needle t

/-- The literal `"/media/plattegrond/"` tested by `normalize_url`. -/
def mediaMarker : List Char := "/media/plattegrond/".toList

/-- The literal `"/media/plattegrond/1"` appended by `normalize_url`. -/
def planSuffix : List Char := "/media/plattegrond/1".toList

/-- The four concrete shapes of the anchored prefix part of the regex
`FUNDA_DETAIL_ROOT = ^https?://(www\.)?funda\.nl/detail/...` (compared against
the lowercased URL, since the regex carries `re.IGNORECASE`). -/
def fundaHeads : List (List Char) :=
  ["http://funda.nl/detail/", "https://funda.nl/detail/",
   "http://www.funda.nl/detail/", "https://www.funda.nl/detail/"].map
    String.toList

/-- Is the head of the list a decimal digit (`\d` right after the `/`)? -/
def digitAfter : List Char → Bool
  | d :: _ => d.isDigit
  | [] => false

/-- Scanner for the regex tail `/(\d+)` preceded by `.+` characters: succeeds
iff some `'/'` followed by a digit occurs, with only non-newline characters
(consumable by `.`, which does not match `'\n'` absent `re.DOTALL`) before it. -/
def slashDigitScan : List Char → Bool
  | [] => false
  | c :: rest =>
    if c = '\n' then false
    else if c = '/' && digitAfter rest then true
    else slashDigitScan rest

/-- Scanner for the regex tail `.+/(\d+)/?` of `FUNDA_DETAIL_ROOT`: at least
one non-newline character, then `/` and a digit.  The regex has no end anchor,
so nothing after the digit is constrained. -/
def fundaTail : List Char → Bool
  | [] => false
  | c :: rest => c ≠ '\n' && slashDigitScan rest

/-- `FUNDA_DETAIL_ROOT.match(url)` (truthiness): the lowercased URL starts with
one of the four head shapes and continues as `fundaTail` requires. -/
def fundaMatch (t : List Char) : Bool :=
  let lo := t.map Char.toLower
  fundaHeads.any fun p => p.isPrefixOf lo && fundaTail (lo.drop p.length)

/-- Core of `normalize_url` (server.py lines 41-47) on character lists. -/
def normCore (l : List Char) : List Char :=
  let t := pyTrim l
  if strContains mediaMarker t then t
  else if fundaMatch t then t ++ planSuffix
  else t

/-- `normalize_url` from server.py lines 41-47. -/
def normalize_url (s : String) : String :=
  String.mk (normCore s.toList)

/-- Modelled from the spec's words for claim C7 only (refinement compare):
"scheme `http` or `https` (case-insensitive), optional `www.` host prefix, host
`funda.nl`, path beginning `/detail/`, followed by one or more non-empty path
segments, ending in a numeric segment, optionally followed by a trailing
slash". -/
def specCanonicalDetail (t : List Char) : Bool :=
  let lo := t.map Char.toLower
  fundaHeads.any fun p =>
    p.isPrefixOf lo &&
      (let r := lo.drop p.length
       let r' := if r.getLast? = some '/' then r.dropLast else r
       let segs := r'.splitOn '/'
       decide (1 ≤ segs.length) && segs.all (fun s => !s.isEmpty) &&
         (match segs.getLast? with
          | some s => !s.isEmpty && s.all Char.isDigit
          | none => false))

/-! ## Generic leftmost regex search

`re.search` tries each start position from the left; `reSearch f l` applies the
per-position matcher `f` to every suffix of `l`, leftmost first. -/

/-- Leftmost-position search: apply `f` at every suffix, first success wins. -/
def reSearch {α : Type} (f : List Char → Option α) : List Char → Option α
  | [] => f []
  | c :: rest =>
    match f (c :: rest) with
    | some x => some x
    | none => reSearch f rest

/-- If `p` is an exact (case-sensitive) prefix of `l`, return the remainder. -/
def dropPre? : List Char → List Char → Option (List Char)
  | [], l => some l
  | _ :: _, [] => none
  | a :: ps, b :: ls => if b = a then dropPre? ps ls else none

/-- Case-insensitive variant (pattern `p` is given lowercased, the scanned text
is lowercased characterwise), for patterns compiled with `re.IGNORECASE`. -/
def ciDropPre? : List Char → List Char → Option (List Char)
  | [], l => some l
  | _ :: _, [] => none
  | a :: ps, b :: ls => if b.toLower = a then ciDropPre? ps ls else none

/-- Value of a run of decimal digits, as consumed by Python's `int()`. -/
def digitsToNat (ds : List Char) : Nat :=
  ds.foldl (fun a c => 10 * a + (c.toNat - 48)) 0

/-! ## JSON values and `json.loads`

`extract_project_id` feeds the embedded `__NUXT_DATA__` array group to
`json.loads`.  The program observes a parsed value only through
`len(...)`/indexing on the top-level list, `isinstance(val, (str, int))` (note
`bool` is a subclass of `int` in Python) and `str(val)`, so the model keeps
payloads only where those observations need them: object fields and float
values are dropped. -/

inductive JVal where
  | jnull
  | jbool (b : Bool)
  | jint (n : Int)
  | jfloat
  | jstr (s : List Char)
  | jarr (xs : List JVal)
  | jobj

/-- JSON inter-token whitespace accepted by CPython's parser. -/
def jsonWs (c : Char) : Bool :=
  c = ' ' || c = '\t' || c = '\n' || c = '\r'

/-- Skip JSON whitespace. -/
def jsonSkip (l : List Char) : List Char := l.dropWhile jsonWs

/-- Hexadecimal digit value, for `\uXXXX` escapes. -/
def hexVal? (c : Char) : Option Nat :=
  if '0' ≤ c ∧ c ≤ '9' then some (c.toNat - 48)
  else if 'a' ≤ c ∧ c ≤ 'f' then some (c.toNat - 87)
  else if 'A' ≤ c ∧ c ≤ 'F' then some (c.toNat - 55)
  else none

/-- Parse the inside of a JSON string literal (the opening quote already
consumed): strict mode, so raw control characters below U+0020 are rejected;
the escapes are `\" \\ \/ \b \f \n \r \t \uXXXX`; surrogate pairs combine, and
the lone surrogates CPython lets through are mapped to U+FFFD (observationally
equivalent here: the program only tests characters for digithood). -/
def parseJStr : Nat → List Char → Option (List Char × List Char)
  | 0, _ => none
  | Nat.succ fuel, l =>
    match l with
    | [] => none
    | c :: rest =>
      if c = '"' then some ([], rest)
      else if c = '\\' then
        match rest with
        | [] => none
        | e :: r =>
          let simple : Option Char :=
            if e = '"' then some '"'
            else if e = '\\' then some '\\'
            else if e = '/' then some '/'
            else if e = 'b' then some '\x08'
            else if e = 'f' then some '\x0c'
            else if e = 'n' then some '\n'
            else if e = 'r' then some '\r'
            else if e = 't' then some '\t'
            else none
          match simple with
          | some ch =>
            match parseJStr fuel r with
            | some (s, r') => some (ch :: s, r')
            | none => none
          | none =>
            if e = 'u' then
              match r with
              | h1 :: h2 :: h3 :: h4 :: r1 =>
                match hexVal? h1, hexVal? h2, hexVal? h3, hexVal? h4 with
                | some a, some b, some c2, some d =>
                  let code := ((a * 16 + b) * 16 + c2) * 16 + d
                  if 0xD800 ≤ code ∧ code ≤ 0xDBFF then
                    match r1 with
                    | '\\' :: 'u' :: g1 :: g2 :: g3 :: g4 :: r2 =>
                      match hexVal? g1, hexVal? g2, hexVal? g3, hexVal? g4 with
                      | some a2, some b2, some c3, some d2 =>
                        let code2 := ((a2 * 16 + b2) * 16 + c3) * 16 + d2
                        if 0xDC00 ≤ code2 ∧ code2 ≤ 0xDFFF then
                          let ch := Char.ofNat
                            (0x10000 + (code - 0xD800) * 0x400 + (code2 - 0xDC00))
                          match parseJStr fuel r2 with
                          | some (s, r') => some (ch :: s, r')
                          | none => none
                        else
                          match parseJStr fuel r1 with
                          | some (s, r') => some ('�' :: s, r')
                          | none => none
                      | _, _, _, _ =>
                        match parseJStr fuel r1 with
                        | some (s, r') => some ('�' :: s, r')
                        | none => none
                    | _ =>
                      match parseJStr fuel r1 with
                      | some (s, r') => some ('�' :: s, r')
                      | none => none
                  else if 0xDC00 ≤ code ∧ code ≤ 0xDFFF then
                    match parseJStr fuel r1 with
                    | some (s, r') => some ('�' :: s, r')
                    | none => none
                  else
                    match parseJStr fuel r1 with
                    | some (s, r') => some (Char.ofNat code :: s, r')
                    | none => none
                | _, _, _, _ => none
              | _ => none
            else none
      else if c.toNat < 0x20 then none
      else
        match parseJStr fuel rest with
        | some (s, r') => some (c :: s, r')
        | none => none

/-- Parse a JSON number per CPython's `NUMBER_RE`
`(-?(?:0|[1-9]\d*))(\.\d+)?([eE][-+]?\d+)?`; a fraction or exponent makes the
value a float (payload dropped), otherwise an int.  The sign, if any, has
already been consumed by the caller. -/
def parseJNum (neg : Bool) (l : List Char) : Option (JVal × List Char) :=
  match l with
  | [] => none
  | c :: rest =>
    if !c.isDigit then none
    else
      let intPart : List Char × List Char :=
        if c = '0' then ([c], rest)
        else (c :: rest.takeWhile Char.isDigit, rest.dropWhile Char.isDigit)
      let r1 := intPart.2
      let fracStep : Bool × List Char :=
        match r1 with
        | '.' :: t =>
          let ds := t.takeWhile Char.isDigit
          if ds.isEmpty then (false, r1) else (true, t.dropWhile Char.isDigit)
        | _ => (false, r1)
      let r2 := fracStep.2
      let expStep : Bool × List Char :=
        match r2 with
        | e :: t =>
          if e = 'e' || e = 'E' then
            let t' := match t with
              | s :: t2 => if s = '+' || s = '-' then t2 else t
              | [] => t
            let ds := t'.takeWhile Char.isDigit
            if ds.isEmpty then (false, r2) else (true, t'.dropWhile Char.isDigit)
          else (false, r2)
        | [] => (false, r2)
      if fracStep.1 || expStep.1 then some (JVal.jfloat, expStep.2)
      else
        let n : Int := Int.ofNat (digitsToNat intPart.1)
        some (JVal.jint (if neg then -n else n), expStep.2)

mutual

/-- Parse one JSON value (leading whitespace already skipped), following the
grammar CPython's `json.loads` accepts, including the `NaN`, `Infinity` and
`-Infinity` extensions. -/
def parseJVal : Nat → List Char → Option (JVal × List Char)
  | 0, _ => none
  | Nat.succ fuel, l =>
    match l with
    | [] => none
    | c :: rest =>
      if c = '{' then
        match parseJObj fuel (jsonSkip rest) true with
        | some r => some (JVal.jobj, r)
        | none => none
      else if c = '[' then
        match parseJArr fuel (jsonSkip rest) true with
        | some (xs, r) => some (JVal.jarr xs, r)
        | none => none
      else if c = '"' then
        match parseJStr (rest.length + 1) rest with
        | some (s, r) => some (JVal.jstr s, r)
        | none => none
      else if c = 't' then
        match dropPre? "rue".toList rest with
        | some r => some (JVal.jbool true, r)
        | none => none
      else if c = 'f' then
        match dropPre? "alse".toList rest with
        | some r => some (JVal.jbool false, r)
        | none => none
      else if c = 'n' then
        match dropPre? "ull".toList rest with
        | some r => some (JVal.jnull, r)
        | none => none
      else if c = 'N' then
        match dropPre? "aN".toList rest with
        | some r => some (JVal.jfloat, r)
        | none => none
      else if c = 'I' then
        match dropPre? "nfinity".toList rest with
        | some r => some (JVal.jfloat, r)
        | none => none
      else if c = '-' then
        match dropPre? "Infinity".toList rest with
        | some r => some (JVal.jfloat, r)
        | none => parseJNum true rest
      else parseJNum false l

/-- Parse the elements of a JSON array after `[` (whitespace skipped); `first`
is true until an element has been parsed, so `[]` is accepted but `[1,]` and
`[,1]` are not. -/
def parseJArr : Nat → List Char → Bool → Option (List JVal × List Char)
  | 0, _, _ => none
  | Nat.succ fuel, l, first =>
    match l with
    | ']' :: r => if first then some ([], r) else none
    | _ =>
      match parseJVal fuel l with
      | none => none
      | some (v, r) =>
        match jsonSkip r with
        | ']' :: r' => some ([v], r')
        | ',' :: r' =>
          match parseJArr fuel (jsonSkip r') false with
          | some (vs, r'') => some (v :: vs, r'')
          | none => none
        | _ => none

/-- Parse the members of a JSON object after `{` (whitespace skipped); the
field payloads are dropped (the program never reads them), but the grammar is
enforced in full. -/
def parseJObj : Nat → List Char → Bool → Option (List Char)
  | 0, _, _ => none
  | Nat.succ fuel, l, first =>
    match l with
    | '}' :: r => if first then some r else none
    | '"' :: r =>
      match parseJStr (r.length + 1) r with
      | none => none
      | some (_, r1) =>
        match jsonSkip r1 with
        | ':' :: r2 =>
          match parseJVal fuel (jsonSkip r2) with
          | none => none
          | some (_, r3) =>
            match jsonSkip r3 with
            | '}' :: r4 => some r4
            | ',' :: r4 => parseJObj fuel (jsonSkip r4) false
            | _ => none
        | _ => none
    | _ => none

end

/-- `json.loads`: the whole input must be one JSON value surrounded by optional
whitespace.  The fuel `2 * length + 2` dominates the recursion depth, which is
bounded by the input length. -/
def json_loads (l : List Char) : Option JVal :=
  match parseJVal (2 * l.length + 2) (jsonSkip l) with
  | some (v, r) => if (jsonSkip r).isEmpty then some v else none
  | none => none

/-! ## `extract_project_id` (server.py lines 50-76) -/

/-- Per-position matcher for `"projectId"\s*:\s*(\d+)` (method 1's marker):
the literal, optional whitespace, a colon, optional whitespace, then a maximal
nonempty digit run, converted by `int()`. -/
def markerAt (l : List Char) : Option Nat :=
  match dropPre? "\"projectId\"".toList l with
  | none => none
  | some r1 =>
    match r1.dropWhile pyWs with
    | ':' :: r2 =>
      let ds := (r2.dropWhile pyWs).takeWhile Char.isDigit
      if ds.isEmpty then none else some (digitsToNat ds)
    | _ => none

/-- Consume through the first `'>'` (the deterministic reading of `[^>]*>`). -/
def afterGt : List Char → Option (List Char)
  | [] => none
  | c :: rest => if c = '>' then some rest else afterGt rest

/-- Does `\s*</script>` match here? (tail test for the lazy `.+?`). -/
def closeOk (l : List Char) : Bool :=
  "</script>".toList.isPrefixOf (l.dropWhile pyWs)

/-- Find the first `']'` whose tail passes `closeOk` — the lazy (`.+?`) closing
bracket — returning the content before it. -/
def bracketContent : List Char → Option (List Char)
  | [] => none
  | c :: rest =>
    if c = ']' && closeOk rest then some []
    else
      match bracketContent rest with
      | some a => some (c :: a)
      | none => none

/-- Per-position matcher for
`id="__NUXT_DATA__"[^>]*>\s*(\[.+?\])\s*</script>` (with `re.DOTALL`):
returns the captured group `[...]` including its brackets.  `[^>]*>` reads to
the first `'>'`, `\s*` then forces a `'['`, and the lazy `.+?` (at least one
character, any character under DOTALL) ends at the first `']'` followed by
whitespace and `</script>`. -/
def nuxtAt (l : List Char) : Option (List Char) :=
  match dropPre? "id=\"__NUXT_DATA__\"".toList l with
  | none => none
  | some r1 =>
    match afterGt r1 with
    | none => none
    | some r2 =>
      match r2.dropWhile pyWs with
      | '[' :: r3 =>
        match r3 with
        | [] => none
        | c0 :: r4 =>
          match bracketContent r4 with
          | some inner => some ('[' :: c0 :: (inner ++ [']']))
          | none => none
      | _ => none

/-- `isinstance(val, (str, int))` — in Python `bool` is a subclass of `int`. -/
def isStrOrInt : JVal → Bool
  | JVal.jstr _ => true
  | JVal.jint _ => true
  | JVal.jbool _ => true
  | _ => false

/-- Decimal representation of an integer, as Python's `str()` renders it. -/
def intRepr (n : Int) : List Char :=
  if n < 0 then '-' :: Nat.toDigits 10 n.natAbs else Nat.toDigits 10 n.natAbs

/-- Python `str(val)`.  Only the `str`/`int`/`bool` cases are ever observed by
the program (they sit behind `isStrOrInt`); the remaining cases are
placeholders. -/
def pyStr : JVal → List Char
  | JVal.jstr s => s
  | JVal.jint n => intRepr n
  | JVal.jbool true => "True".toList
  | JVal.jbool false => "False".toList
  | JVal.jnull => "None".toList
  | JVal.jfloat => "0.0".toList
  | JVal.jarr _ => "[]".toList
  | JVal.jobj => "{}".toList

/-- `re.match(r'^\d{6,}$', s)` truthiness.  Python's `$` also matches just
before a single trailing newline, so `"123456\n"` passes. -/
def digitCheck (s : List Char) : Bool :=
  let t := if s.getLast? = some '\n' then s.dropLast else s
  decide (6 ≤ t.length) && t.all Char.isDigit

/-- The acceptance test of method 1:
`isinstance(val, (str, int)) and re.match(r'^\d{6,}$', str(val))`. -/
def valOk (v : JVal) : Bool := isStrOrInt v && digitCheck (pyStr v)

/-- Method 1 (server.py lines 51-64): resolve the `"projectId"` marker to an
index, locate and JSON-parse the `__NUXT_DATA__` array, and accept the indexed
value if it is a digits-only `str`/`int` of length at least 6.  Every failure
(no marker, no array group, bad JSON, index out of range, wrong shape) yields
`none`, mirroring the code's guarded `try`/`except` fall-through. -/
def embeddedStrategy (l : List Char) : Option (List Char) :=
  match reSearch markerAt l with
  | none => none
  | some idx =>
    match reSearch nuxtAt l with
    | none => none
    | some grp =>
      match json_loads grp with
      | some (JVal.jarr xs) =>
        match xs[idx]? with
        | some v => if valOk v then some (pyStr v) else none
        | none => none
      | _ => none

/-- Per-position matcher for `projectId[=:](\d{6,})` (method 2). -/
def inlineAt (l : List Char) : Option (List Char) :=
  match dropPre? "projectId".toList l with
  | none => none
  | some r1 =>
    match r1 with
    | c :: r2 =>
      if c = '=' || c = ':' then
        let ds := r2.takeWhile Char.isDigit
        if 6 ≤ ds.length then some ds else none
      else none
    | [] => none

/-- Method 2 (server.py lines 66-69). -/
def inlineStrategy (l : List Char) : Option (List Char) := reSearch inlineAt l

/-- Try `/(\d{6,})\.fml` exactly here (the `\d{6,}` run is maximal: a shorter
run would leave a digit where `\.` must match). -/
def s3SlashTry (l : List Char) : Option (List Char) :=
  match l with
  | c :: r =>
    if c = '/' then
      let ds := r.takeWhile Char.isDigit
      if 6 ≤ ds.length then
        match dropPre? ".fml".toList (r.dropWhile Char.isDigit) with
        | some _ => some ds
        | none => none
      else none
    else none
  | [] => none

/-- The lazy `[^"]*?` expansion: try the `/(\d{6,})\.fml` tail at each point,
expanding one non-quote character at a time. -/
def s3Scan : List Char → Option (List Char)
  | [] => none
  | c :: rest =>
    match s3SlashTry (c :: rest) with
    | some ds => some ds
    | none => if c = '"' then none else s3Scan rest

/-- Per-position matcher for `fmlpub\.s3[^"]*?/(\d{6,})\.fml` (method 3). -/
def s3At (l : List Char) : Option (List Char) :=
  match dropPre? "fmlpub.s3".toList l with
  | none => none
  | some r => s3Scan r

/-- Method 3 (server.py lines 71-74). -/
def s3Strategy (l : List Char) : Option (List Char) := reSearch s3At l

/-- Methods 2 then 3 — what runs when method 1 reports no match. -/
def fallbackStr (l : List Char) : Option String :=
  match inlineStrategy l with
  | some v => some (String.mk v)
  | none => (s3Strategy l).map String.mk

/-- `extract_project_id` (server.py lines 50-76): the three strategies in
fixed priority order, first success wins, `None` if all fail. -/
def extract_project_id (html : String) : Option String :=
  match embeddedStrategy html.toList with
  | some v => some (String.mk v)
  | none => fallbackStr html.toList

/-! ## `extract_sale_status` (server.py lines 79-94) -/

/-- Per-position matcher for `<title[^>]*>([^<]+)</title>` with
`re.IGNORECASE`: returns the captured title text. -/
def titleAt (l : List Char) : Option (List Char) :=
  match ciDropPre? "<title".toList l with
  | none => none
  | some r1 =>
    match afterGt r1 with
    | none => none
    | some r2 =>
      let txt := r2.takeWhile (fun c => c ≠ '<')
      if txt.isEmpty then none
      else
        match ciDropPre? "</title>".toList (r2.dropWhile (fun c => c ≠ '<')) with
        | some _ => some txt
        | none => none

/-- `extract_sale_status` (server.py lines 79-94): find the title text,
lowercase it, and classify by substring tests in fixed priority order. -/
def extract_sale_status (html : String) : Option String :=
  match reSearch titleAt html.toList with
  | none => none
  | some t =>
    let lt := t.map Char.toLower
    if strContains "verkocht onder voorbehoud".toList lt then
      some "Verkocht onder voorbehoud"
    else if strContains "verkocht".toList lt then some "Verkocht"
    else if strContains "te koop".toList lt then some "Te koop"
    else if strContains "te huur".toList lt then some "Te huur"
    else none

/-! ## Concrete inputs used by the claim witnesses and counterexamples -/

/-- HTML whose embedded array yields `654321` at marker index 0 while an inline
`projectId=999999` also matches: exercises strategy priority (C1). -/
def exC1 : String :=
  "<script id=\"__NUXT_DATA__\">[\"654321\"]</script> \"projectId\": 0 projectId=999999"

/-- HTML whose embedded array group `[,]` is malformed JSON but which carries a
valid inline `projectId:1234567` (C2). -/
def exC2 : String :=
  "\"projectId\":1<script id=\"__NUXT_DATA__\">[,]</script>projectId:1234567"

/-- HTML with none of the three extraction patterns (C3). -/
def exC3 : String := "<html><body>hello</body></html>"

/-- HTML whose embedded array value is the string `"123456\n"`: six digits
followed by a newline, which `^\d{6,}$` accepts in Python (C4). -/
def exC4 : String :=
  "\"projectId\":0<script id=\"__NUXT_DATA__\">[\"123456\\n\"]</script>"

/-- URL on which stripping the trailing slash exposes trailing whitespace, so a
second normalization pass changes the string again (C5). -/
def exC5 : String := "x/media/plattegrond/ /"

/-- URL containing `/media/plattegrond/` only at its very end: trimming removes
the final slash, the marker test then fails, and the detail-page regex matches,
so the suffix is appended after all (C6). -/
def exC6 : String := "https://www.funda.nl/detail/x/123456/media/plattegrond/"

/-- URL whose path does not end in a numeric segment, yet matches the
unanchored `FUNDA_DETAIL_ROOT` regex (C7). -/
def exC7 : String := "https://funda.nl/detail/a/1x"

/-- The spec's own canonical example URL (C7 witness). -/
def exC7w : String :=
  "https://www.funda.nl/detail/koopwoning/amsterdam/straat-12/12345678/"

/-- Title carrying the `Verkocht onder voorbehoud` phrase (C9). -/
def exC9 : String :=
  "<title>Appartement – Verkocht onder voorbehoud – Funda</title>"

/-! ## List utilities -/

theorem mem_takeWhileBool {α : Type} {p : α → Bool} :
    ∀ {l : List α} {a : α}, a ∈ l.takeWhile p → p a = true
  | [], _, h => by simp [List.takeWhile] at h
  | c :: t, a, h => by
    rw [List.takeWhile_cons] at h
    cases hc : p c with
    | true =>
      rw [hc, if_pos rfl] at h
      rcases List.mem_cons.mp h with h' | h'
      · rw [h']; exact hc
      · exact mem_takeWhileBool h'
    | false =>
      rw [hc] at h
      simp at h

theorem head?_dropWhileBool {α : Type} {p : α → Bool} :
    ∀ {l : List α} {a : α}, (l.dropWhile p).head? = some a → p a = false
  | [], a, h => by simp [List.dropWhile] at h
  | c :: t, a, h => by
    rw [List.dropWhile_cons] at h
    cases hc : p c with
    | true => rw [hc, if_pos rfl] at h; exact head?_dropWhileBool h
    | false =>
      rw [hc] at h
      simp only [Bool.false_eq_true, if_false, List.head?_cons, Option.some.injEq] at h
      rw [← h]; exact hc

theorem dropWhile_self {α : Type} {p : α → Bool} {l : List α}
    (h : ∀ a, l.head? = some a → p a = false) : l.dropWhile p = l := by
  cases l with
  | nil => rfl
  | cons c t => rw [List.dropWhile_cons, h c rfl]; simp

/-- Split off the matched run of a `dropWhile`. -/
theorem dropWhile_decomp {α : Type} (p : α → Bool) (l : List α) :
    ∃ w, l = w ++ l.dropWhile p ∧ ∀ c ∈ w, p c = true :=
  ⟨l.takeWhile p, (List.takeWhile_append_dropWhile p l).symm,
    fun _ hc => mem_takeWhileBool hc⟩

/-- Split off the trailing run removed by a reversed `dropWhile`. -/
theorem rstrip_decomp {α : Type} (p : α → Bool) (l : List α) :
    ∃ w, l = (l.reverse.dropWhile p).reverse ++ w ∧ ∀ c ∈ w, p c = true := by
  refine ⟨(l.reverse.takeWhile p).reverse, ?_, ?_⟩
  · calc l = l.reverse.reverse := (List.reverse_reverse l).symm
    _ = (l.reverse.takeWhile p ++ l.reverse.dropWhile p).reverse := by
          rw [List.takeWhile_append_dropWhile]
    _ = (l.reverse.dropWhile p).reverse ++ (l.reverse.takeWhile p).reverse := by
          rw [List.reverse_append]
  · intro c hc
    exact mem_takeWhileBool (List.mem_reverse.mp hc)

theorem strContains_append_left {n : List Char} (x : List Char) {m : List Char}
    (h : strContains n m = true) : strContains n (x ++ m) = true := by
  induction x with
  | nil => simpa using h
  | cons c t ih =>
    rw [List.cons_append, strContains, ih, Bool.or_true]

/-- Containing a longer literal implies containing its first part. -/
theorem strContains_of_append {p q : List Char} :
    ∀ {m : List Char}, strContains (p ++ q) m = true → strContains p m = true := by
  intro m
  induction m with
  | nil =>
    rw [strContains, strContains]
    intro h
    cases p with
    | nil => rfl
    | cons x xs => simp [List.isEmpty] at h
  | cons c t ih =>
    rw [strContains, strContains]
    intro h
    rcases Bool.or_eq_true_iff.mp h with hp | hrest
    · have h1 : (p ++ q) <+: (c :: t) := List.isPrefixOf_iff_prefix.mp hp
      have h2 : p <+: (p ++ q) := ⟨q, rfl⟩
      have h3 : p <+: (c :: t) := h2.trans h1
      exact Bool.or_eq_true_iff.mpr (Or.inl (List.isPrefixOf_iff_prefix.mpr h3))
    · exact Bool.or_eq_true_iff.mpr (Or.inr (ih hrest))

/-! ## Lemmas about the trimming in `normalize_url` -/

theorem pyStrip_decomp (l : List Char) :
    ∃ w₁ w₂, l = w₁ ++ pyStrip l ++ w₂ ∧
      (∀ c ∈ w₁, pyWs c = true) ∧ (∀ c ∈ w₂, pyWs c = true) := by
  obtain ⟨w₁, h₁, hw₁⟩ := dropWhile_decomp pyWs l
  obtain ⟨w₂, h₂, hw₂⟩ := rstrip_decomp pyWs (l.dropWhile pyWs)
  refine ⟨w₁, w₂, ?_, hw₁, hw₂⟩
  have h₂' : l.dropWhile pyWs = pyStrip l ++ w₂ := h₂
  calc l = w₁ ++ l.dropWhile pyWs := h₁
  _ = w₁ ++ (pyStrip l ++ w₂) := by rw [h₂']
  _ = w₁ ++ pyStrip l ++ w₂ := by rw [List.append_assoc]

theorem pyTrim_decomp (l : List Char) :
    ∃ w₁ s w₂, l = w₁ ++ pyTrim l ++ s ++ w₂ ∧
      (∀ c ∈ w₁, pyWs c = true) ∧ (∀ c ∈ s, c = '/') ∧ (∀ c ∈ w₂, pyWs c = true) := by
  obtain ⟨w₁, w₂, h₁, hw₁, hw₂⟩ := pyStrip_decomp l
  obtain ⟨s, h₂, hs⟩ := rstrip_decomp (fun c => decide (c = '/')) (pyStrip l)
  refine ⟨w₁, s, w₂, ?_, hw₁, fun c hc => of_decide_eq_true (hs c hc), hw₂⟩
  have h₂' : pyStrip l = pyTrim l ++ s := h₂
  calc l = w₁ ++ pyStrip l ++ w₂ := h₁
  _ = w₁ ++ (pyTrim l ++ s) ++ w₂ := by rw [h₂']
  _ = w₁ ++ pyTrim l ++ s ++ w₂ := by simp [List.append_assoc]

theorem pyStrip_head {l : List Char} {c : Char}
    (h : (pyStrip l).head? = some c) : pyWs c = false := by
  obtain ⟨w₂, h₂, _⟩ := rstrip_decomp pyWs (l.dropWhile pyWs)
  cases hps : pyStrip l with
  | nil => rw [hps] at h; cases h
  | cons a t =>
    rw [hps] at h
    simp only [List.head?_cons, Option.some.injEq] at h
    have hx : (l.dropWhile pyWs).head? = some a := by
      rw [show ((l.dropWhile pyWs).reverse.dropWhile pyWs).reverse = pyStrip l from rfl,
        hps] at h₂
      rw [h₂]; rfl
    rw [← h]; exact head?_dropWhileBool hx

theorem pyStrip_last {l : List Char} {c : Char}
    (h : (pyStrip l).getLast? = some c) : pyWs c = false := by
  rw [pyStrip, List.getLast?_reverse] at h
  exact head?_dropWhileBool h

theorem rstripSlash_last {l : List Char} {c : Char}
    (h : (rstripSlash l).getLast? = some c) : c ≠ '/' := by
  rw [rstripSlash, List.getLast?_reverse] at h
  exact of_decide_eq_false
    (@head?_dropWhileBool Char (fun x => decide (x = '/')) l.reverse c h)

theorem pyTrim_last {l : List Char} {c : Char}
    (h : (pyTrim l).getLast? = some c) : c ≠ '/' :=
  rstripSlash_last h

theorem pyTrim_head {l : List Char} {c : Char}
    (h : (pyTrim l).head? = some c) : pyWs c = false := by
  obtain ⟨s, hs, _⟩ := rstrip_decomp (fun c => decide (c = '/')) (pyStrip l)
  cases hpt : pyTrim l with
  | nil => rw [hpt] at h; cases h
  | cons a t =>
    rw [hpt] at h
    simp only [List.head?_cons, Option.some.injEq] at h
    have hx : (pyStrip l).head? = some a := by
      rw [show (((pyStrip l).reverse.dropWhile fun c => decide (c = '/'))).reverse
          = pyTrim l from rfl, hpt] at hs
      rw [hs]; rfl
    rw [← h]; exact pyStrip_head hx

/-- If a list has no leading whitespace, no trailing whitespace and no trailing
slash, the trimming of `normalize_url` leaves it unchanged. -/
theorem pyTrim_fix {l : List Char}
    (hh : ∀ c, l.head? = some c → pyWs c = false)
    (hl : ∀ c, l.getLast? = some c → pyWs c = false)
    (hs : ∀ c, l.getLast? = some c → c ≠ '/') :
    pyTrim l = l := by
  have h1 : l.dropWhile pyWs = l := dropWhile_self hh
  have h2 : l.reverse.dropWhile pyWs = l.reverse :=
    dropWhile_self fun a ha => hl a (by rwa [List.head?_reverse] at ha)
  have h3 : pyStrip l = l := by rw [pyStrip, h1, h2, List.reverse_reverse]
  have h4 : (l.reverse.dropWhile fun c => decide (c = '/')) = l.reverse :=
    dropWhile_self fun a ha => by
      rw [List.head?_reverse] at ha
      exact decide_eq_false (hs a ha)
  rw [pyTrim, h3, rstripSlash, h4, List.reverse_reverse]

/-! ## Branch lemmas for `normCore` -/

theorem normCore_marker {l : List Char}
    (h : strContains mediaMarker (pyTrim l) = true) : normCore l = pyTrim l := by
  simp [normCore, h]

theorem normCore_append {l : List Char}
    (h₁ : strContains mediaMarker (pyTrim l) = false)
    (h₂ : fundaMatch (pyTrim l) = true) :
    normCore l = pyTrim l ++ planSuffix := by
  simp [normCore, h₁, h₂]

theorem normCore_id {l : List Char}
    (h₁ : strContains mediaMarker (pyTrim l) = false)
    (h₂ : fundaMatch (pyTrim l) = false) :
    normCore l = pyTrim l := by
  simp [normCore, h₁, h₂]

theorem normCore_cases (l : List Char) :
    normCore l = pyTrim l ∨ normCore l = pyTrim l ++ planSuffix := by
  by_cases h₁ : strContains mediaMarker (pyTrim l) = true
  · exact Or.inl (normCore_marker h₁)
  · by_cases h₂ : fundaMatch (pyTrim l) = true
    · exact Or.inr (normCore_append (Bool.not_eq_true _ ▸ h₁ : _ = false) h₂)
    · exact Or.inl (normCore_id (Bool.not_eq_true _ ▸ h₁ : _ = false)
        (Bool.not_eq_true _ ▸ h₂ : _ = false))

theorem normCore_head {l : List Char} {c : Char}
    (h : (normCore l).head? = some c) : pyWs c = false := by
  rcases normCore_cases l with hv | hv
  · rw [hv] at h; exact pyTrim_head h
  · rw [hv, List.head?_append] at h
    cases hph : (pyTrim l).head? with
    | some a =>
      rw [hph] at h
      simp only [Option.or_some, Option.some.injEq] at h
      rw [← h]; exact pyTrim_head hph
    | none =>
      rw [hph] at h
      simp only [Option.none_or] at h
      have : planSuffix.head? = some '/' := rfl
      rw [this, Option.some.injEq] at h
      rw [← h]; rfl

theorem normCore_last {l : List Char} {c : Char}
    (h : (normCore l).getLast? = some c) : c ≠ '/' := by
  rcases normCore_cases l with hv | hv
  · rw [hv] at h; exact pyTrim_last h
  · rw [hv, List.getLast?_append] at h
    have : planSuffix.getLast? = some '1' := by decide
    rw [this] at h
    simp only [Option.or_some, Option.some.injEq] at h
    rw [← h]; decide

theorem strContains_marker_planSuffix : strContains mediaMarker planSuffix = true := by
  decide

/-- Idempotence of the normalizer core, under the proviso that the first pass
did not leave trailing whitespace (stripping `'/'` after whitespace can expose
whitespace again, and the second pass then removes it). -/
theorem normCore_idem {l : List Char}
    (h : ∀ c, (normCore l).getLast? = some c → pyWs c = false) :
    normCore (normCore l) = normCore l := by
  have hfix : pyTrim (normCore l) = normCore l :=
    pyTrim_fix (fun c hc => normCore_head hc) h (fun c hc => normCore_last hc)
  have hstep : normCore (normCore l) =
      if strContains mediaMarker (normCore l) then normCore l
      else if fundaMatch (normCore l) then normCore l ++ planSuffix
      else normCore l := by
    rw [show normCore (normCore l) =
        (if strContains mediaMarker (pyTrim (normCore l)) then pyTrim (normCore l)
         else if fundaMatch (pyTrim (normCore l)) then pyTrim (normCore l) ++ planSuffix
         else pyTrim (normCore l)) from rfl, hfix]
  by_cases h₁ : strContains mediaMarker (pyTrim l) = true
  · have hv : normCore l = pyTrim l := normCore_marker h₁
    rw [hstep, hv, h₁]; simp
  · have h₁' : strContains mediaMarker (pyTrim l) = false := Bool.not_eq_true _ ▸ h₁
    by_cases h₂ : fundaMatch (pyTrim l) = true
    · have hv : normCore l = pyTrim l ++ planSuffix := normCore_append h₁' h₂
      have hm : strContains mediaMarker (normCore l) = true := by
        rw [hv]; exact strContains_append_left _ strContains_marker_planSuffix
      rw [hstep, hm]; simp
    · have h₂' : fundaMatch (pyTrim l) = false := Bool.not_eq_true _ ▸ h₂
      have hv : normCore l = pyTrim l := normCore_id h₁' h₂'
      rw [hstep, hv, h₁', h₂']; simp

/-! ## Characterization of `fundaMatch` -/

theorem digitAfter_iff {l : List Char} :
    digitAfter l = true ↔ ∃ d t, l = d :: t ∧ d.isDigit = true := by
  cases l with
  | nil => simp [digitAfter]
  | cons d t =>
    simp only [digitAfter]
    constructor
    · intro h; exact ⟨d, t, rfl, h⟩
    · rintro ⟨d', t', he, hd⟩
      cases he; exact hd

theorem slashDigitScan_iff :
    ∀ {l : List Char}, slashDigitScan l = true ↔
      ∃ a d t, l = a ++ '/' :: d :: t ∧ (∀ c ∈ a, c ≠ '\n') ∧ d.isDigit = true := by
  intro l
  induction l with
  | nil =>
    simp only [slashDigitScan, Bool.false_eq_true, false_iff]
    rintro ⟨a, d, t, he, -, -⟩
    cases a <;> simp at he
  | cons c rest ih =>
    rw [slashDigitScan]
    by_cases hnl : c = '\n'
    · subst hnl
      rw [if_pos rfl]
      simp only [Bool.false_eq_true, false_iff]
      rintro ⟨a, d, t, he, ha, -⟩
      cases a with
      | nil => simp at he
      | cons x a' =>
        rw [List.cons_append] at he
        injection he with h1 _
        exact ha x (List.mem_cons_self x a') h1.symm
    · rw [if_neg hnl]
      by_cases hsd : (c = '/' && digitAfter rest) = true
      · rw [if_pos hsd]
        simp only [true_iff]
        obtain ⟨hc, hda⟩ := Bool.and_eq_true_iff.mp hsd
        obtain ⟨d, t, he, hd⟩ := digitAfter_iff.mp hda
        exact ⟨[], d, t, by rw [List.nil_append, of_decide_eq_true hc, he],
          by simp, hd⟩
      · rw [if_neg hsd]
        rw [ih]
        constructor
        · rintro ⟨a, d, t, he, ha, hd⟩
          refine ⟨c :: a, d, t, by rw [List.cons_append, he], ?_, hd⟩
          intro x hx
          rcases List.mem_cons.mp hx with rfl | hx'
          · exact hnl
          · exact ha x hx'
        · rintro ⟨a, d, t, he, ha, hd⟩
          cases a with
          | nil =>
            rw [List.nil_append] at he
            injection he with h1 h2
            exfalso
            apply hsd
            rw [h1, h2]
            simp [digitAfter, hd]
          | cons x a' =>
            rw [List.cons_append] at he
            injection he with h1 h2
            refine ⟨a', d, t, h2, fun y hy => ha y (List.mem_cons_of_mem x hy), hd⟩

theorem fundaTail_iff {l : List Char} :
    fundaTail l = true ↔
      ∃ a d t, l = a ++ '/' :: d :: t ∧ a ≠ [] ∧ (∀ c ∈ a, c ≠ '\n') ∧
        d.isDigit = true := by
  cases l with
  | nil =>
    simp only [fundaTail, Bool.false_eq_true, false_iff]
    rintro ⟨a, d, t, he, -, -, -⟩
    cases a <;> simp at he
  | cons c rest =>
    rw [fundaTail, Bool.and_eq_true_iff, slashDigitScan_iff]
    constructor
    · rintro ⟨hc, a, d, t, he, ha, hd⟩
      refine ⟨c :: a, d, t, by rw [List.cons_append, he], List.cons_ne_nil c a, ?_, hd⟩
      intro x hx
      rcases List.mem_cons.mp hx with rfl | hx'
      · exact of_decide_eq_true hc
      · exact ha x hx'
    · rintro ⟨a, d, t, he, hne, ha, hd⟩
      cases a with
      | nil => exact absurd rfl hne
      | cons x a' =>
        rw [List.cons_append] at he
        injection he with h1 h2
        subst h1
        exact ⟨decide_eq_true (ha c (List.mem_cons_self c a')),
          a', d, t, h2, fun y hy => ha y (List.mem_cons_of_mem c hy), hd⟩

/-- `FUNDA_DETAIL_ROOT.match` succeeds exactly when the lowercased URL starts
with one of the four concrete head shapes and then has, after at least one
non-newline character, a `'/'` followed by a digit (no end anchor). -/
theorem fundaMatch_iff {u : List Char} :
    fundaMatch u = true ↔
      ∃ p ∈ fundaHeads, ∃ r, u.map Char.toLower = p ++ r ∧
        ∃ a d t, r = a ++ '/' :: d :: t ∧ a ≠ [] ∧ (∀ c ∈ a, c ≠ '\n') ∧
          d.isDigit = true := by
  rw [fundaMatch, List.any_eq_true]
  constructor
  · rintro ⟨p, hp, hmatch⟩
    obtain ⟨hpre, htail⟩ := Bool.and_eq_true_iff.mp hmatch
    obtain ⟨r, hr⟩ := List.isPrefixOf_iff_prefix.mp hpre
    refine ⟨p, hp, r, hr.symm, ?_⟩
    have hdrop : (u.map Char.toLower).drop p.length = r := by
      rw [← hr, List.drop_left]
    rw [hdrop] at htail
    exact fundaTail_iff.mp htail
  · rintro ⟨p, hp, r, hr, hex⟩
    refine ⟨p, hp, Bool.and_eq_true_iff.mpr ⟨?_, ?_⟩⟩
    · exact List.isPrefixOf_iff_prefix.mpr ⟨r, hr.symm⟩
    · have hdrop : (u.map Char.toLower).drop p.length = r := by
        rw [hr, List.drop_left]
      rw [hdrop]
      exact fundaTail_iff.mpr hex

/-! ## Structural lemmas for `extract_project_id` -/

theorem extract_of_embedded {html : String} {v : List Char}
    (h : embeddedStrategy html.toList = some v) :
    extract_project_id html = some (String.mk v) := by
  rw [extract_project_id, h]

theorem extract_of_no_embedded {html : String}
    (h : embeddedStrategy html.toList = none) :
    extract_project_id html = fallbackStr html.toList := by
  rw [extract_project_id, h]

theorem fallback_of_inline {l : List Char} {v : List Char}
    (h : inlineStrategy l = some v) : fallbackStr l = some (String.mk v) := by
  rw [fallbackStr, h]

theorem fallback_none {l : List Char}
    (h₂ : inlineStrategy l = none) (h₃ : s3Strategy l = none) :
    fallbackStr l = none := by
  rw [fallbackStr, h₂, h₃]; rfl

/-- A successful `reSearch` comes from the matcher succeeding at some suffix. -/
theorem reSearch_some {α : Type} {f : List Char → Option α} :
    ∀ {l : List Char} {x : α}, reSearch f l = some x → ∃ t, f t = some x
  | [], x, h => ⟨[], h⟩
  | c :: rest, x, h => by
    rw [reSearch] at h
    cases hf : f (c :: rest) with
    | some y => rw [hf] at h; exact ⟨c :: rest, hf.trans h⟩
    | none => rw [hf] at h; exact reSearch_some h

/-! ## Shape of accepted candidates (digit checks) -/

theorem takeWhile_digits {l : List Char} {c : Char}
    (h : c ∈ l.takeWhile Char.isDigit) : c.isDigit = true :=
  mem_takeWhileBool h

theorem inlineAt_shape {l ds : List Char} (h : inlineAt l = some ds) :
    6 ≤ ds.length ∧ ∀ c ∈ ds, c.isDigit = true := by
  rw [inlineAt] at h
  cases hp : dropPre? "projectId".toList l with
  | none => rw [hp] at h; cases h
  | some r1 =>
    rw [hp] at h
    cases r1 with
    | nil => cases h
    | cons c r2 =>
      dsimp only at h
      by_cases hc : (c = '=' || c = ':') = true
      · rw [if_pos hc] at h
        by_cases hlen : 6 ≤ (r2.takeWhile Char.isDigit).length
        · rw [if_pos hlen] at h
          injection h with h'
          subst h'
          exact ⟨hlen, fun c hc => takeWhile_digits hc⟩
        · rw [if_neg hlen] at h; cases h
      · rw [if_neg hc] at h; cases h

theorem inlineStrategy_shape {l ds : List Char} (h : inlineStrategy l = some ds) :
    6 ≤ ds.length ∧ ∀ c ∈ ds, c.isDigit = true := by
  obtain ⟨t, ht⟩ := reSearch_some h
  exact inlineAt_shape ht

theorem s3SlashTry_shape {l ds : List Char} (h : s3SlashTry l = some ds) :
    6 ≤ ds.length ∧ ∀ c ∈ ds, c.isDigit = true := by
  rw [s3SlashTry.eq_def] at h
  cases l with
  | nil => cases h
  | cons c r =>
    dsimp only at h
    by_cases hc : c = '/'
    · rw [if_pos hc] at h
      by_cases hlen : 6 ≤ (r.takeWhile Char.isDigit).length
      · rw [if_pos hlen] at h
        cases hdp : dropPre? ".fml".toList (r.dropWhile Char.isDigit) with
        | none => rw [hdp] at h; cases h
        | some w =>
          rw [hdp] at h
          injection h with h'
          subst h'
          exact ⟨hlen, fun c hc => takeWhile_digits hc⟩
      · rw [if_neg hlen] at h; cases h
    · rw [if_neg hc] at h; cases h

theorem s3Scan_shape : ∀ {l ds : List Char}, s3Scan l = some ds →
    6 ≤ ds.length ∧ ∀ c ∈ ds, c.isDigit = true
  | [], _, h => by cases h
  | c :: rest, ds, h => by
    rw [s3Scan] at h
    cases ht : s3SlashTry (c :: rest) with
    | some x =>
      rw [ht] at h
      injection h with h'
      subst h'
      exact s3SlashTry_shape ht
    | none =>
      rw [ht] at h
      by_cases hq : c = '"'
      · rw [if_pos hq] at h; cases h
      · rw [if_neg hq] at h; exact s3Scan_shape h

theorem s3At_shape {l ds : List Char} (h : s3At l = some ds) :
    6 ≤ ds.length ∧ ∀ c ∈ ds, c.isDigit = true := by
  rw [s3At] at h
  cases hp : dropPre? "fmlpub.s3".toList l with
  | none => rw [hp] at h; cases h
  | some r => rw [hp] at h; exact s3Scan_shape h

theorem s3Strategy_shape {l ds : List Char} (h : s3Strategy l = some ds) :
    6 ≤ ds.length ∧ ∀ c ∈ ds, c.isDigit = true := by
  obtain ⟨t, ht⟩ := reSearch_some h
  exact s3At_shape ht

/-- Unpack a passed `digitCheck`: the value is at least six digits, possibly
followed by one trailing newline. -/
theorem digitCheck_shape {s : List Char} (h : digitCheck s = true) :
    ∃ ds, (s = ds ∨ s = ds ++ ['\n']) ∧ 6 ≤ ds.length ∧
      ∀ c ∈ ds, c.isDigit = true := by
  rw [digitCheck] at h
  by_cases hnl : s.getLast? = some '\n'
  · rw [if_pos hnl] at h
    obtain ⟨hlen, hdig⟩ := Bool.and_eq_true_iff.mp h
    refine ⟨s.dropLast, Or.inr ?_, of_decide_eq_true hlen,
      fun c hc => List.all_eq_true.mp hdig c hc⟩
    have hne : s ≠ [] := by
      intro he; rw [he] at hnl; cases hnl
    have hcat := List.dropLast_concat_getLast hne
    rw [List.getLast?_eq_getLast s hne, Option.some.injEq] at hnl
    rw [hnl] at hcat
    exact hcat.symm
  · rw [if_neg hnl] at h
    obtain ⟨hlen, hdig⟩ := Bool.and_eq_true_iff.mp h
    exact ⟨s, Or.inl rfl, of_decide_eq_true hlen,
      fun c hc => List.all_eq_true.mp hdig c hc⟩

/-- Whatever method 1 returns passed the `^\d{6,}$` test. -/
theorem embeddedStrategy_shape {l v : List Char}
    (h : embeddedStrategy l = some v) : digitCheck v = true := by
  rw [embeddedStrategy] at h
  cases h₁ : reSearch markerAt l with
  | none => rw [h₁] at h; cases h
  | some idx =>
    rw [h₁] at h
    dsimp only at h
    cases h₂ : reSearch nuxtAt l with
    | none => rw [h₂] at h; cases h
    | some grp =>
      rw [h₂] at h
      dsimp only at h
      cases h₃ : json_loads grp with
      | none => rw [h₃] at h; cases h
      | some jv =>
        rw [h₃] at h
        cases jv with
        | jarr xs =>
          dsimp only at h
          cases h₄ : xs[idx]? with
          | none => rw [h₄] at h; cases h
          | some val =>
            rw [h₄] at h
            dsimp only at h
            by_cases h₅ : valOk val = true
            · rw [if_pos h₅] at h
              injection h with h'
              subst h'
              exact (Bool.and_eq_true_iff.mp h₅).2
            · rw [if_neg h₅] at h; cases h
        | jnull => cases h
        | jbool b => cases h
        | jint n => cases h
        | jfloat => cases h
        | jstr s => cases h
        | jobj => cases h

/-! ## Claims -/

/-- C1: whenever the embedded-data-array strategy succeeds with value `v` and
the inline-parameter strategy would produce a different value `w`,
`extract_project_id` returns the embedded-array value `v` and not the inline
value `w` (strategy priority). -/
theorem claim_c1 (html : String) (v w : List Char)
    (h₁ : embeddedStrategy html.toList = some v)
    (_h₂ : inlineStrategy html.toList = some w)
    (hne : v ≠ w) :
    extract_project_id html = some (String.mk v) ∧
      extract_project_id html ≠ some (String.mk w) := by
  have he := extract_of_embedded h₁
  refine ⟨he, ?_⟩
  rw [he]
  intro hcon
  injection hcon with h'
  exact hne (congrArg String.data h')

set_option maxRecDepth 16384 in
/-- Witness for C1 at a concrete page: the embedded value 654321 wins over the
differing inline value 999999. -/
theorem claim_c1_witness :
    extract_project_id exC1 = some "654321" ∧
      extract_project_id exC1 ≠ some "999999" :=
  claim_c1 exC1 "654321".toList "999999".toList (by decide) (by decide) (by decide)

/-- C2: when the embedded-array group is not valid JSON, or the marker index is
out of bounds, or the indexed value fails the type/shape check, method 1
reports no match (it returns `none`; the Lean embedding is total, mirroring the
absorbed `JSONDecodeError`/`IndexError`), and `extract_project_id` falls
through to the inline-parameter strategy and then the asset-URL strategy. -/
theorem claim_c2 (html : String) (idx : Nat) (grp : List Char)
    (hm : reSearch markerAt html.toList = some idx)
    (hg : reSearch nuxtAt html.toList = some grp)
    (hfail : (json_loads grp).isSome = false ∨
      (∃ xs, json_loads grp = some (JVal.jarr xs) ∧
        ∀ v, xs[idx]? = some v → valOk v = false) ∨
      (∃ jv, json_loads grp = some jv ∧ ∀ xs, jv ≠ JVal.jarr xs)) :
    embeddedStrategy html.toList = none ∧
      extract_project_id html = fallbackStr html.toList := by
  have hemb : embeddedStrategy html.toList = none := by
    rw [embeddedStrategy, hm]
    dsimp only
    rw [hg]
    dsimp only
    rcases hfail with hj | ⟨xs, hj, hv⟩ | ⟨jv, hj, hnj⟩
    · cases hjl : json_loads grp with
      | none => rfl
      | some v => rw [hjl] at hj; cases hj
    · rw [hj]
      dsimp only
      cases h₄ : xs[idx]? with
      | none => rfl
      | some v => simp [hv v h₄]
    · rw [hj]
      cases jv with
      | jarr xs => exact absurd rfl (hnj xs)
      | jnull => rfl
      | jbool b => rfl
      | jint n => rfl
      | jfloat => rfl
      | jstr s => rfl
      | jobj => rfl
  exact ⟨hemb, extract_of_no_embedded hemb⟩

set_option maxRecDepth 16384 in
/-- Witness for C2: a malformed (truncated) embedded array plus a valid inline
`projectId:1234567` yields `"1234567"`. -/
theorem claim_c2_witness :
    extract_project_id exC2 = some "1234567" := by
  have h := claim_c2 exC2 1 "[,]".toList (by decide) (by decide)
    (Or.inl (by decide))
  rw [h.2]
  decide

/-- C3: when none of the three strategies finds a candidate,
`extract_project_id` returns `none` (the `NotFound` value); the embedding is a
total function on all input strings, mirroring the exception-free pipeline. -/
theorem claim_c3 (html : String)
    (h₁ : embeddedStrategy html.toList = none)
    (h₂ : inlineStrategy html.toList = none)
    (h₃ : s3Strategy html.toList = none) :
    extract_project_id html = none := by
  rw [extract_of_no_embedded h₁, fallback_none h₂ h₃]

set_option maxRecDepth 16384 in
/-- Witness for C3 on pattern-free HTML. -/
theorem claim_c3_witness : extract_project_id exC3 = none :=
  claim_c3 exC3 (by decide) (by decide) (by decide)

set_option maxRecDepth 16384 in
/-- C4 counterexample: the claim says every returned candidate consists solely
of digits, but on `exC4` the code returns `"123456\n"`, whose last character is
a newline, not a digit (Python's `$` in `^\d{6,}$` also matches before one
trailing newline). -/
theorem claim_c4_counterexample :
    extract_project_id exC4 = some "123456\n" ∧
      '\n' ∈ ("123456\n" : String).toList ∧ Char.isDigit '\n' = false :=
  ⟨by decide, by decide, by decide⟩

/-- C4 amended: every candidate returned by `extract_project_id` is a run of at
least six digits, optionally followed by exactly one trailing newline (the
inline and asset-URL strategies always return pure digit runs; only the
embedded-array strategy can add the newline).  In particular any candidate of
five digits is rejected by every strategy. -/
theorem claim_c4_amended (html s : String)
    (h : extract_project_id html = some s) :
    ∃ ds, (s.toList = ds ∨ s.toList = ds ++ ['\n']) ∧ 6 ≤ ds.length ∧
      ∀ c ∈ ds, c.isDigit = true := by
  rw [extract_project_id] at h
  cases h₁ : embeddedStrategy html.toList with
  | some v =>
    rw [h₁] at h
    dsimp only at h
    injection h with h'
    obtain ⟨ds, hd, hlen, hdig⟩ := digitCheck_shape (embeddedStrategy_shape h₁)
    have hs : s.toList = v := by rw [← h']; rfl
    refine ⟨ds, ?_, hlen, hdig⟩
    rcases hd with hd | hd
    · exact Or.inl (by rw [hs, hd])
    · exact Or.inr (by rw [hs, hd])
  | none =>
    rw [h₁] at h
    dsimp only at h
    rw [fallbackStr] at h
    cases h₂ : inlineStrategy html.toList with
    | some w =>
      rw [h₂] at h
      dsimp only at h
      injection h with h'
      obtain ⟨hlen, hdig⟩ := inlineStrategy_shape h₂
      exact ⟨w, Or.inl (by rw [← h']; rfl), hlen, hdig⟩
    | none =>
      rw [h₂] at h
      dsimp only at h
      cases h₃ : s3Strategy html.toList with
      | some w =>
        rw [h₃] at h
        simp only [Option.map_some'] at h
        injection h with h'
        obtain ⟨hlen, hdig⟩ := s3Strategy_shape h₃
        exact ⟨w, Or.inl (by rw [← h']; rfl), hlen, hdig⟩
      | none =>
        rw [h₃] at h
        cases h

set_option maxRecDepth 16384 in
/-- Witness for the amended C4 on an inline-only page. -/
theorem claim_c4_witness :
    ∃ ds, (("7777777" : String).toList = ds ∨
        ("7777777" : String).toList = ds ++ ['\n']) ∧ 6 ≤ ds.length ∧
      ∀ c ∈ ds, c.isDigit = true :=
  claim_c4_amended "projectId=7777777" "7777777" (by decide)

set_option maxRecDepth 16384 in
/-- C5 counterexample: normalization is not idempotent on all inputs — on
`exC5` the first pass strips the trailing slash and leaves a trailing space,
and the second pass strips further. -/
theorem claim_c5_counterexample :
    normalize_url (normalize_url exC5) ≠ normalize_url exC5 := by decide

/-- C5 amended: normalization is idempotent on every input whose normalized
form has no trailing whitespace (equivalently, whenever stripping the trailing
slashes does not expose whitespace — in particular on all whitespace-free
URLs). -/
theorem claim_c5_amended (u : String)
    (h : Option.all (fun c => !pyWs c) (normalize_url u).toList.getLast? = true) :
    normalize_url (normalize_url u) = normalize_url u := by
  have h' : ∀ c, (normCore u.toList).getLast? = some c → pyWs c = false := by
    intro c hc
    have hc' : (normalize_url u).toList.getLast? = some c := hc
    rw [hc'] at h
    simpa using h
  show String.mk (normCore (normCore u.toList)) = String.mk (normCore u.toList)
  rw [normCore_idem h']

set_option maxRecDepth 16384 in
/-- Witness for the amended C5 on a plain URL. -/
theorem claim_c5_witness :
    normalize_url (normalize_url "https://example.com/foo") =
      normalize_url "https://example.com/foo" :=
  claim_c5_amended "https://example.com/foo" (by decide)

set_option maxRecDepth 16384 in
/-- C6 counterexample: the claim says a URL containing `/media/plattegrond/`
is returned trimmed and unchanged, but when the marker sits at the very end,
trimming eats its final slash and the suffix is appended after all. -/
theorem claim_c6_counterexample :
    strContains mediaMarker exC6.toList = true ∧
      normalize_url exC6 =
        "https://www.funda.nl/detail/x/123456/media/plattegrond/media/plattegrond/1" ∧
      normalize_url exC6 ≠ String.mk (pyTrim exC6.toList) :=
  ⟨by decide, by decide, by decide⟩

/-- C6 amended: whenever the TRIMMED url still contains `/media/plattegrond/`,
`normalize_url` returns the trimmed input unchanged. -/
theorem claim_c6_amended (u : String)
    (h : strContains mediaMarker (pyTrim u.toList) = true) :
    normalize_url u = String.mk (pyTrim u.toList) := by
  show String.mk (normCore u.toList) = String.mk (pyTrim u.toList)
  rw [normCore_marker h]

set_option maxRecDepth 16384 in
/-- Witness for the amended C6: a URL already pointing inside the floor-plan
sub-page passes through unchanged. -/
theorem claim_c6_witness :
    normalize_url "https://www.funda.nl/detail/x/88888888/media/plattegrond/1" =
      "https://www.funda.nl/detail/x/88888888/media/plattegrond/1" :=
  (claim_c6_amended "https://www.funda.nl/detail/x/88888888/media/plattegrond/1"
    (by decide)).trans (by decide)

set_option maxRecDepth 16384 in
/-- C7 counterexample: `exC7` does not match the spec's canonical detail-page
pattern (its path ends in `1x`, not a numeric segment), yet the code appends
`/media/plattegrond/1` because `FUNDA_DETAIL_ROOT` has no end anchor. -/
theorem claim_c7_counterexample :
    specCanonicalDetail (pyTrim exC7.toList) = false ∧
      normalize_url exC7 = "https://funda.nl/detail/a/1x/media/plattegrond/1" :=
  ⟨by decide, by decide⟩

/-- C7 amended: for a trimmed URL not containing `/media/plattegrond/`, the
suffix is appended exactly when the lowercased URL starts with
`http(s)://(www.)funda.nl/detail/` and then contains, after at least one
non-newline character, a `'/'` followed by a digit — with nothing constrained
after that digit (the regex is unanchored at the end); otherwise the trimmed
URL is returned unchanged. -/
theorem claim_c7_amended (u : String)
    (h : strContains mediaMarker (pyTrim u.toList) = false) :
    (normalize_url u = String.mk (pyTrim u.toList ++ planSuffix) ↔
      fundaMatch (pyTrim u.toList) = true) ∧
    (fundaMatch (pyTrim u.toList) = true ↔
      ∃ p ∈ fundaHeads, ∃ r, (pyTrim u.toList).map Char.toLower = p ++ r ∧
        ∃ a d t, r = a ++ '/' :: d :: t ∧ a ≠ [] ∧ (∀ c ∈ a, c ≠ '\n') ∧
          d.isDigit = true) := by
  refine ⟨?_, fundaMatch_iff⟩
  constructor
  · intro he
    by_cases h₂ : fundaMatch (pyTrim u.toList) = true
    · exact h₂
    · exfalso
      have hu : normalize_url u = String.mk (pyTrim u.toList) := by
        show String.mk (normCore u.toList) = _
        rw [normCore_id h (Bool.not_eq_true _ ▸ h₂)]
      rw [hu] at he
      have hdata : pyTrim u.toList = pyTrim u.toList ++ planSuffix :=
        congrArg String.data he
      have hlen := congrArg List.length hdata
      rw [List.length_append] at hlen
      have hps : planSuffix.length = 20 := rfl
      omega
  · intro h₂
    show String.mk (normCore u.toList) = _
    rw [normCore_append h h₂]

set_option maxRecDepth 16384 in
/-- Witness for the amended C7 at the spec's own example URL. -/
theorem claim_c7_witness :
    normalize_url exC7w =
      "https://www.funda.nl/detail/koopwoning/amsterdam/straat-12/12345678/media/plattegrond/1" := by
  have h := (claim_c7_amended exC7w (by decide)).1.mpr (by decide)
  exact h.trans (by decide)

set_option maxRecDepth 16384 in
/-- C8 counterexample: the claim says exactly one trailing slash is stripped,
but `rstrip("/")` removes every trailing slash: `"abc//"` becomes `"abc"`,
not `"abc/"`. -/
theorem claim_c8_counterexample :
    normalize_url "abc//" = "abc" ∧ ("abc" : String) ≠ "abc/" :=
  ⟨by decide, by decide⟩

/-- C8 amended: before matching, `normalize_url` trims leading and trailing
whitespace and strips ALL trailing slashes; consequently every non-matching URL
comes back as the input minus a leading whitespace run, a trailing whitespace
run, and the whole trailing slash run between them. -/
theorem claim_c8_amended (u : String)
    (h₁ : strContains mediaMarker (pyTrim u.toList) = false)
    (h₂ : fundaMatch (pyTrim u.toList) = false) :
    normalize_url u = String.mk (pyTrim u.toList) ∧
    ∃ w₁ s w₂, u.toList = w₁ ++ pyTrim u.toList ++ s ++ w₂ ∧
      (∀ c ∈ w₁, pyWs c = true) ∧ (∀ c ∈ s, c = '/') ∧
      (∀ c ∈ w₂, pyWs c = true) := by
  refine ⟨?_, pyTrim_decomp u.toList⟩
  show String.mk (normCore u.toList) = String.mk (pyTrim u.toList)
  rw [normCore_id h₁ h₂]

set_option maxRecDepth 16384 in
/-- Witness for the amended C8 on a non-matching URL with double trailing
slash and surrounding whitespace. -/
theorem claim_c8_witness :
    normalize_url " https://example.org/a// " = "https://example.org/a" :=
  ((claim_c8_amended " https://example.org/a// " (by decide) (by decide)).1).trans
    (by decide)

/-- C9: `extract_sale_status` returns `none` when no title matches, otherwise
lowercases the first captured title text and classifies it by substring tests
in the fixed order `verkocht onder voorbehoud`, `verkocht`, `te koop`,
`te huur`; the order matters because every title containing
`verkocht onder voorbehoud` also contains `verkocht`. -/
theorem claim_c9 (html : String) :
    (reSearch titleAt html.toList = none → extract_sale_status html = none) ∧
    (∀ t, reSearch titleAt html.toList = some t →
      extract_sale_status html =
        (let lt := t.map Char.toLower
         if strContains "verkocht onder voorbehoud".toList lt then
           some "Verkocht onder voorbehoud"
         else if strContains "verkocht".toList lt then some "Verkocht"
         else if strContains "te koop".toList lt then some "Te koop"
         else if strContains "te huur".toList lt then some "Te huur"
         else none)) ∧
    (∀ lt, strContains "verkocht onder voorbehoud".toList lt = true →
      strContains "verkocht".toList lt = true) := by
  refine ⟨?_, ?_, ?_⟩
  · intro h
    rw [extract_sale_status, h]
  · intro t ht
    rw [extract_sale_status, ht]
  · intro lt h
    have he : "verkocht onder voorbehoud".toList =
        "verkocht".toList ++ " onder voorbehoud".toList := by decide
    rw [he] at h
    exact strContains_of_append h

set_option maxRecDepth 16384 in
/-- Witness for C9 at the spec's example title: the more specific label wins. -/
theorem claim_c9_witness :
    extract_sale_status exC9 = some "Verkocht onder voorbehoud" := by
  have h := (claim_c9 exC9).2.1
    "Appartement – Verkocht onder voorbehoud – Funda".toList (by decide)
  rw [h]
  decide

set_option maxRecDepth 16384 in
/-- C10 counterexample: the result of `normalize_url` can end in whitespace —
on `"abc /"` the stripped slash exposes a trailing space that stays. -/
theorem claim_c10_counterexample :
    normalize_url "abc /" = "abc " ∧
      (normalize_url "abc /").toList.getLast? = some ' ' ∧ pyWs ' ' = true :=
  ⟨by decide, by decide, by decide⟩

/-- C10 amended: every branch of `normalize_url` returns either the trimmed
input or the trimmed input with `/media/plattegrond/1` appended; the result
never starts with whitespace and never ends with `'/'` (but, contrary to the
claim, it can end with whitespace). -/
theorem claim_c10_amended (u : String) :
    (normalize_url u = String.mk (pyTrim u.toList) ∨
      normalize_url u = String.mk (pyTrim u.toList ++ planSuffix)) ∧
    (∀ c, (normalize_url u).toList.head? = some c → pyWs c = false) ∧
    (∀ c, (normalize_url u).toList.getLast? = some c → c ≠ '/') := by
  refine ⟨?_, ?_, ?_⟩
  · rcases normCore_cases u.toList with h | h
    · exact Or.inl (congrArg String.mk h)
    · exact Or.inr (congrArg String.mk h)
  · intro c hc
    exact normCore_head hc
  · intro c hc
    exact normCore_last hc

set_option maxRecDepth 16384 in
/-- Witness instantiating the amended C10 at a concrete URL. -/
theorem claim_c10_witness :
    normalize_url "https://funda.nl/detail/q/654321/" =
        String.mk (pyTrim "https://funda.nl/detail/q/654321/".toList) ∨
      normalize_url "https://funda.nl/detail/q/654321/" =
        String.mk (pyTrim "https://funda.nl/detail/q/654321/".toList ++ planSuffix) :=
  (claim_c10_amended "https://funda.nl/detail/q/654321/").1

end Mattori
